import Mathlib

/-!
Verification model of the LEAT concept-search core (pattern compiler,
scanner, span resolver, document result), shallowly embedded in Lean.
The Python package itself is not present in the sources available here
(only its README, CHANGELOG, Makefile and an example notebook are), so
the core components are modelled from the specification's component
contracts, and the theorems below settle the specification's testable
properties against that model.
-/

namespace Leat

/-! ## Characters and case folding -/

/-- Modelled from the spec: ASCII word characters (letters and digits) are
the token characters; wildcards never cross a non-word character. -/
def isWordChar (c : Char) : Bool :=
  ('a' ≤ c && c ≤ 'z') || ('A' ≤ c && c ≤ 'Z') || ('0' ≤ c && c ≤ '9')

/-- ASCII lower-casing used for case-insensitive matching. -/
def toLowerAscii (c : Char) : Char :=
  if 'A' ≤ c && c ≤ 'Z' then Char.ofNat (c.toNat + 32) else c

/-- Is this character an ASCII lowercase letter? -/
def isLowerAscii (c : Char) : Bool := 'a' ≤ c && c ≤ 'z'

/-- Modelled from the spec: a term is case-sensitive iff the raw term is
composed entirely of uppercase letters (ignoring non-letters), i.e. it
contains no lowercase letter. -/
def isAllUpperTerm (t : String) : Bool := t.toList.all (fun c => !isLowerAscii c)

/-! ## Pattern compiler (spec section 4.2)

The Pattern Compiler is absent from the available sources; it is
modelled from the spec: each raw term compiles to a sequence of
segments, literal runs separated by wildcard markers `*`, with the case
rule applied per term. -/

/-- A segment of a compiled pattern: a literal run of characters, or a
wildcard standing for zero or more token characters. -/
inductive Seg where
  | lit (cs : List Char)
  | wild

/-- Split a term's characters at `*` markers into pattern segments. -/
def segsOfChars : List Char → List Seg
  | [] => []
  | c :: rest =>
    if c = '*' then Seg.wild :: segsOfChars rest
    else
      match segsOfChars rest with
      | Seg.lit cs :: segs => Seg.lit (c :: cs) :: segs
      | segs => Seg.lit [c] :: segs

/-- Total number of literal characters in a segment list.  A pattern with
no literal characters is degenerate (it could match the empty string). -/
def litLen : List Seg → Nat
  | [] => 0
  | Seg.lit cs :: rest => cs.length + litLen rest
  | Seg.wild :: rest => litLen rest

/-- Modelled from the spec: a Compiled Pattern is a matcher (segment
list) plus back-references to its owning concept and raw term, and the
derived case policy. -/
structure CompiledPattern where
  concept : String
  term : String
  ignoreCase : Bool
  segs : List Seg

/-- Lower-case the literal characters of a segment. -/
def lowerSeg : Seg → Seg
  | .lit cs => .lit (cs.map toLowerAscii)
  | .wild => .wild

/-- Compile one term rule of a concept (spec sections 3 and 4.2): derive
the case flag from the uppercase rule, split at wildcard markers, and
fold the literal segments to lowercase when case-insensitive. -/
def compileTerm (concept term : String) : CompiledPattern :=
  let ic := !isAllUpperTerm term
  let segs := segsOfChars term.toList
  ⟨concept, term, ic, if ic then segs.map lowerSeg else segs⟩

/-! ## Scanner (spec section 4.3) -/

/-- Case-fold a document's characters for one pattern: lower-cased when
the pattern is case-insensitive, verbatim otherwise. -/
def foldText (p : CompiledPattern) (cs : List Char) : List Char :=
  if p.ignoreCase then cs.map toLowerAscii else cs

/-- Does the literal run `l` occur verbatim at offset `i` of `cs`? -/
def litAt (l : List Char) (cs : List Char) (i : Nat) : Bool :=
  (cs.drop i).take l.length == l

/-- Length of the longest prefix made of word characters. -/
def countWord : List Char → Nat
  | [] => 0
  | c :: rest => if isWordChar c then countWord rest + 1 else 0

/-- Length of the run of word characters starting at offset `i`: the
room a wildcard may consume without leaving the current token. -/
def tokenRun (cs : List Char) (i : Nat) : Nat :=
  countWord (cs.drop i)

/-- All offsets at which a match of the segment list beginning at offset
`i` can end: literals must occur verbatim, a wildcard consumes zero or
more word characters of the current token. -/
def matchEnds : List Seg → List Char → Nat → List Nat
  | [], _, i => [i]
  | Seg.lit l :: rest, cs, i =>
    if litAt l cs i then matchEnds rest cs (i + l.length) else []
  | Seg.wild :: rest, cs, i =>
    (List.range (tokenRun cs i + 1)).flatMap (fun d => matchEnds rest cs (i + d))

/-- Maximum of a list of naturals, `none` when empty. -/
def maxNat? : List Nat → Option Nat
  | [] => none
  | n :: rest =>
    match maxNat? rest with
    | none => some n
    | some m => some (Nat.max n m)

/-- The position before a match start must not be a word character
(whole-word/phrase anchoring, spec section 4.2). -/
def startBoundary (cs : List Char) (i : Nat) : Bool :=
  match i with
  | 0 => true
  | j + 1 =>
    match cs[j]? with
    | some c => !isWordChar c
    | none => true

/-- The position at a match end must not be a word character. -/
def endBoundary (cs : List Char) (e : Nat) : Bool :=
  match cs[e]? with
  | some c => !isWordChar c
  | none => true

/-- Longest boundary-respecting match of pattern `p` starting at offset
`i` of the (already case-folded) text, if any. -/
def bestEndAt (p : CompiledPattern) (cs : List Char) (i : Nat) : Option Nat :=
  if startBoundary cs i then
    maxNat? ((matchEnds p.segs cs i).filter (fun e => endBoundary cs e))
  else none

/-- Modelled from the spec: the per-pattern scan loop.  Walks the text
left to right; at each offset takes the longest boundary-respecting
match if one exists and resumes after it (leftmost-longest,
non-overlapping per pattern), otherwise advances one character.  `fuel`
is an upper bound on the remaining steps. -/
def findLoop : Nat → CompiledPattern → List Char → Nat → List (Nat × Nat)
  | 0, _, _, _ => []
  | fuel + 1, p, cs, i =>
    if i < cs.length then
      match bestEndAt p cs i with
      | some e =>
        if i < e ∧ e ≤ cs.length then (i, e) :: findLoop fuel p cs e
        else findLoop fuel p cs (i + 1)
      | none => findLoop fuel p cs (i + 1)
    else []

/-- A Raw Match (spec section 3): concept back-reference, declaration
index of the compiled pattern that produced it, half-open offset
interval, and the matched substring of the original text. -/
structure RawMatch where
  concept : String
  patIdx : Nat
  start : Nat
  stop : Nat
  text : String

/-- All leftmost-longest non-overlapping occurrences of one compiled
pattern in the text, as Raw Matches tagged with the pattern's
declaration index `idx`. -/
def findMatches (p : CompiledPattern) (idx : Nat) (text : String) : List RawMatch :=
  let cs := text.toList
  (findLoop (cs.length + 1) p (foldText p cs) 0).map
    (fun pr => ⟨p.concept, idx, pr.1, pr.2, String.mk ((cs.drop pr.1).take (pr.2 - pr.1))⟩)

/-- Presentation order of the merged scan output: primarily start offset
ascending, ties broken by compiled-pattern declaration order. -/
def scanOrd (a b : RawMatch) : Prop :=
  a.start < b.start ∨ (a.start = b.start ∧ a.patIdx ≤ b.patIdx)

instance : DecidableRel scanOrd := fun a b => by
  unfold scanOrd; infer_instance

instance : IsTotal RawMatch scanOrd := by
  constructor
  intro a b
  unfold scanOrd
  omega

instance : IsTrans RawMatch scanOrd := by
  constructor
  intro a b c
  unfold scanOrd
  omega

/-- Modelled from the spec: `scan` applies every compiled pattern to the
text and merges all per-pattern results into one sequence ordered by
start offset, ties by declaration order.  No match is dropped because of
cross-pattern overlap. -/
def scan (text : String) (pats : List CompiledPattern) : List RawMatch :=
  List.insertionSort scanOrd
    ((pats.enum).flatMap (fun ip => findMatches ip.2 ip.1 text))

/-! ## Concept configuration (spec sections 4.1 and 7) -/

/-- Error kinds fatal to loading or compiling a configuration (spec
section 7); each identifies the offending concept or term. -/
inductive ConfigurationError where
  | emptyConceptName
  | duplicateConceptName (name : String)
  | emptyTerm (concept : String)
  | degenerateWildcard (term : String)

/-- A Concept: unique display name owning an ordered list of raw terms. -/
structure Concept where
  name : String
  terms : List String

/-- The immutable Concept Configuration: concepts in declaration order. -/
structure Config where
  concepts : List Concept

/-- First name occurring more than once in the list, if any. -/
def firstDup : List String → Option String
  | [] => none
  | n :: rest => if rest.contains n then some n else firstDup rest

/-- Modelled from the spec: `load` validates the raw concept mapping
(ordered list of concept name and term strings) and constructs the
immutable configuration; it fails with a `ConfigurationError` when a
concept name is empty or duplicated or a term string is empty. -/
def load (raw : List (String × List String)) : Except ConfigurationError Config :=
  match raw.find? (fun pr => pr.1 == "") with
  | some _ => .error .emptyConceptName
  | none =>
    match firstDup (raw.map (·.1)) with
    | some n => .error (.duplicateConceptName n)
    | none =>
      match raw.find? (fun pr => pr.2.contains "") with
      | some pr => .error (.emptyTerm pr.1)
      | none => .ok ⟨raw.map (fun pr => ⟨pr.1, pr.2⟩)⟩

/-- One compiled pattern per term rule, preserving declaration order:
outer order by concept, inner order by term within concept. -/
def compilePatterns : List Concept → List CompiledPattern
  | [] => []
  | c :: rest => c.terms.map (compileTerm c.name) ++ compilePatterns rest

/-- Modelled from the spec: `compile` turns a configuration into the
compiled pattern list in declaration order, failing with a
`ConfigurationError` when some term's wildcard placement is degenerate
(its pattern could match the empty string as the whole term). -/
def compileConfig (cfg : Config) : Except ConfigurationError (List CompiledPattern) :=
  match (compilePatterns cfg.concepts).find? (fun p => litLen p.segs == 0) with
  | some p => .error (.degenerateWildcard p.term)
  | none => .ok (compilePatterns cfg.concepts)

/-! ## Span resolver (spec section 4.4)

Modelled from the spec: sort Raw Matches by start ascending then by
descending length, then one linear sweep with a stack of open spans
builds the forest.  A closing span becomes a child of the open span
below it when that span fully contains it, and a new root otherwise
(the documented partial-overlap policy). -/

/-- A Span: a Raw Match placed in the nesting tree, with its ordered
child spans. -/
inductive Span where
  | mk (concept : String) (start stop : Nat) (text : String) (children : List Span)

/-- The concept of a span. -/
def Span.concept : Span → String
  | .mk c _ _ _ _ => c

/-- The start offset of a span. -/
def Span.start : Span → Nat
  | .mk _ s _ _ _ => s

/-- The end offset (exclusive) of a span. -/
def Span.stop : Span → Nat
  | .mk _ _ e _ _ => e

/-- The matched substring of a span. -/
def Span.text : Span → String
  | .mk _ _ _ t _ => t

/-- The ordered child spans of a span. -/
def Span.children : Span → List Span
  | .mk _ _ _ _ ch => ch

/-- An open span on the resolver's stack: its match plus the children
completed so far. -/
structure Frame where
  fm : RawMatch
  children : List Span

/-- Close an open span into a completed Span node. -/
def closeFrame (f : Frame) : Span :=
  .mk f.fm.concept f.fm.start f.fm.stop f.fm.text f.children

/-- Should the top frame be popped?  `some p`: it ends at or before the
incoming start `p`; `none`: end of input, pop everything. -/
def shouldPop (po : Option Nat) (f : Frame) : Bool :=
  match po with
  | none => true
  | some p => f.fm.stop ≤ p

/-- Does the open span `g` fully contain the completed span `sp`? -/
def frContains (g : Frame) (sp : Span) : Bool :=
  g.fm.start ≤ sp.start && sp.stop ≤ g.fm.stop

/-- Pop finished open spans off the stack: each popped span is appended
as a child of the open span below it when fully contained there, and to
the root list otherwise.  `fuel` bounds the number of pops (the stack
length always suffices). -/
def popEndedF : Nat → Option Nat → List Span → List Frame → List Span × List Frame
  | 0, _, roots, stack => (roots, stack)
  | _ + 1, _, roots, [] => (roots, [])
  | fuel + 1, po, roots, f :: rest =>
    if shouldPop po f then
      match rest with
      | [] => (roots ++ [closeFrame f], [])
      | g :: rest2 =>
        if frContains g (closeFrame f) then
          popEndedF fuel po roots ({ g with children := g.children ++ [closeFrame f] } :: rest2)
        else
          popEndedF fuel po (roots ++ [closeFrame f]) (g :: rest2)
    else (roots, f :: rest)

/-- One step of the resolver sweep: pop the open spans that end at or
before the incoming match's start, then push the incoming match as a
new open span. -/
def rstep (st : List Span × List Frame) (m : RawMatch) : List Span × List Frame :=
  let r := popEndedF st.2.length (some m.start) st.1 st.2
  (r.1, ⟨m, []⟩ :: r.2)

/-- Resolver sort order: start offset ascending, then descending length
(longer span first at equal start). -/
def resOrd (a b : RawMatch) : Prop :=
  a.start < b.start ∨ (a.start = b.start ∧ b.stop ≤ a.stop)

instance : DecidableRel resOrd := fun a b => by
  unfold resOrd; infer_instance

instance : IsTotal RawMatch resOrd := by
  constructor
  intro a b
  unfold resOrd
  omega

instance : IsTrans RawMatch resOrd := by
  constructor
  intro a b c
  unfold resOrd
  omega

/-- Sweep an already-sorted match list into the span forest. -/
def resolveSorted (ms : List RawMatch) : List Span :=
  let st := ms.foldl rstep ([], [])
  (popEndedF st.2.length none st.1 st.2).1

/-- Modelled from the spec: `resolve` sorts the Raw Matches (start
ascending, longer first at equal start) and builds the deterministic
span forest by the linear stack sweep. -/
def resolve (ms : List RawMatch) : List Span :=
  resolveSorted (List.insertionSort resOrd ms)

/-! ## Document result (spec section 4.5) -/

/-- Pre-order list of the concept names of every node of the forest
(the full traversal used for concept counts). -/
def forestNames : List Span → List String
  | [] => []
  | Span.mk c _ _ _ ch :: rest => c :: (forestNames ch ++ forestNames rest)

/-- Add one occurrence of concept `c` to the count mapping, preserving
first-occurrence order of concepts. -/
def bump : List (String × Nat) → String → List (String × Nat)
  | [], c => [(c, 1)]
  | (n, k) :: rest, c =>
    if n = c then (n, k + 1) :: rest else (n, k) :: bump rest c

/-- Build the concept-count mapping from the traversal's name list. -/
def buildCounts (ns : List String) : List (String × Nat) :=
  ns.foldl bump []

/-- The Document Result: document reference, the resolved top-level
span forest, the text length, and the concept-count mapping. -/
structure DocResult where
  docRef : String
  spans : List Span
  textLength : Nat
  counts : List (String × Nat)

/-- Modelled from the spec: `build` aggregates the span forest for one
document, computing concept counts by a full traversal of the forest
counting every node. -/
def buildResult (docRef : String) (spans : List Span) (textLength : Nat) : DocResult :=
  ⟨docRef, spans, textLength, buildCounts (forestNames spans)⟩

/-- The count recorded for a concept name in a count mapping, `0` if
absent. -/
def countOf : List (String × Nat) → String → Nat
  | [], _ => 0
  | (n, k) :: rest, name => if n = name then k else countOf rest name

/-- The count recorded for a concept name, `0` if absent. -/
def countFor (dr : DocResult) (name : String) : Nat :=
  countOf dr.counts name

/-- The full pipeline on one document: load the raw configuration,
compile it, scan the text, resolve the matches, build the result. -/
def runPipeline (raw : List (String × List String)) (docRef text : String) :
    Except ConfigurationError DocResult :=
  match load raw with
  | .error e => .error e
  | .ok cfg =>
    match compileConfig cfg with
    | .error e => .error e
    | .ok pats => .ok (buildResult docRef (resolve (scan text pats)) text.length)

/-! ## Search over a document store -/

/-- Modelled from the spec: a Search value holds the compiled pattern
set and the document store, a list of document references with their
extracted text. -/
structure Search where
  patterns : List CompiledPattern
  docs : List (String × String)

/-- Scan and aggregate one document of the store. -/
def searchDoc (s : Search) (d : String × String) : DocResult :=
  buildResult d.1 (resolve (scan d.2 s.patterns)) d.2.length

/-- Modelled from the spec: `search_documents` produces one DocResult
per document of the store, in store order. -/
def searchDocuments (s : Search) : List DocResult :=
  s.docs.map (searchDoc s)

/-- Modelled from the notebook: iterating over a Search yields the
DocResults of its documents one by one, in store order. -/
def searchIterAux (s : Search) : List (String × String) → List DocResult
  | [] => []
  | d :: rest => searchDoc s d :: searchIterAux s rest

/-- The sequence produced by iterating over a Search value. -/
def searchIter (s : Search) : List DocResult :=
  searchIterAux s s.docs

/-! ## Counting lemmas -/

theorem countOf_bump (acc : List (String × Nat)) (c name : String) :
    countOf (bump acc c) name = countOf acc name + (if c = name then 1 else 0) := by
  induction acc with
  | nil =>
    by_cases h : c = name <;> simp [bump, countOf, h]
  | cons pr rest ih =>
    obtain ⟨n, k⟩ := pr
    by_cases hnc : n = c
    · subst hnc
      by_cases h : n = name <;> simp [bump, countOf, h]
    · by_cases h : n = name
      · subst h
        simp [bump, hnc, countOf, Ne.symm hnc]
      · simpa [bump, hnc, countOf, h] using ih

theorem countOf_foldl_bump (ns : List String) :
    ∀ acc name, countOf (ns.foldl bump acc) name = countOf acc name + ns.count name := by
  induction ns with
  | nil => simp
  | cons c rest ih =>
    intro acc name
    rw [List.foldl_cons, ih, countOf_bump, List.count_cons]
    by_cases h : c = name
    · simp [h]
      omega
    · simp [h]

theorem countFor_buildResult (r : String) (spans : List Span) (len : Nat) (name : String) :
    countFor (buildResult r spans len) name = (forestNames spans).count name := by
  show countOf (buildCounts (forestNames spans)) name = _
  rw [buildCounts, countOf_foldl_bump]
  simp [countOf]

/-! ## Claim theorems (concrete and algebraic) -/

/-- The raw configuration of the end-to-end example. -/
def c1raw : List (String × List String) :=
  [("Performance Metrics", ["recall", "sensitivity"]),
   ("Data Ethics", ["bias"]),
   ("Ethical Principles", ["justice"])]

/-- The text of the end-to-end example. -/
def c1text : String := "Recall and sensitivity are related to bias and justice."

/-- C1: on the text `"Recall and sensitivity are related to bias and
justice."` with the three-concept configuration, the full pipeline
(compile, scan, resolve, build) yields counts Performance Metrics 2,
Data Ethics 1, Ethical Principles 1, and exactly four childless,
pairwise non-overlapping top-level spans, left to right `Recall`,
`sensitivity`, `bias`, `justice`. -/
theorem claim_C1 :
    ∃ dr : DocResult, runPipeline c1raw "doc1" c1text = .ok dr ∧
      countFor dr "Performance Metrics" = 2 ∧
      countFor dr "Data Ethics" = 1 ∧
      countFor dr "Ethical Principles" = 1 ∧
      dr.spans.map (fun sp => (sp.start, sp.stop, sp.text)) =
        [(0, 6, "Recall"), (11, 22, "sensitivity"), (38, 42, "bias"), (47, 54, "justice")] ∧
      dr.spans.map Span.children = [[], [], [], []] ∧
      List.Pairwise (fun a b : Span => a.stop ≤ b.start) dr.spans := by
  refine ⟨buildResult "doc1"
      [Span.mk "Performance Metrics" 0 6 "Recall" [],
       Span.mk "Performance Metrics" 11 22 "sensitivity" [],
       Span.mk "Data Ethics" 38 42 "bias" [],
       Span.mk "Ethical Principles" 47 54 "justice" []] c1text.length,
    rfl, ?_, ?_, ?_, rfl, rfl, by decide⟩ <;>
  · rw [countFor_buildResult]
    simp [forestNames]

/-- The pattern list of the overlap example: phrase `"distributive
justice"` under concept `A`, single word `"justice"` under concept `B`. -/
def c2pats : List CompiledPattern :=
  [compileTerm "A" "distributive justice", compileTerm "B" "justice"]

/-- C2: on text `"distributive justice."`, the Scanner produces exactly
two Raw Matches, the Span Resolver nests the `justice` match as a child
of the `distributive justice` span, the count for concept `B` is still
1, and in general the concept counts of a built Document Result are the
node counts of the full traversal of the span forest (a nested match
counts for its own concept). -/
theorem claim_C2 :
    scan "distributive justice." c2pats =
      [⟨"A", 0, 0, 20, "distributive justice"⟩, ⟨"B", 1, 13, 20, "justice"⟩] ∧
    resolve (scan "distributive justice." c2pats) =
      [Span.mk "A" 0 20 "distributive justice" [Span.mk "B" 13 20 "justice" []]] ∧
    countFor (buildResult "doc2" (resolve (scan "distributive justice." c2pats)) 21) "B" = 1 ∧
    ∀ (r : String) (spans : List Span) (len : Nat) (name : String),
      countFor (buildResult r spans len) name = (forestNames spans).count name := by
  refine ⟨rfl, rfl, ?_, countFor_buildResult⟩
  have hres : resolve (scan "distributive justice." c2pats) =
      [Span.mk "A" 0 20 "distributive justice" [Span.mk "B" 13 20 "justice" []]] := rfl
  rw [countFor_buildResult, hres]
  simp [forestNames]

theorem countWord_word : ∀ (cs : List Char) (k : Nat), k < countWord cs →
    ∃ c, cs[k]? = some c ∧ isWordChar c = true := by
  intro cs
  induction cs with
  | nil =>
    intro k hk
    simp [countWord] at hk
  | cons c rest ih =>
    intro k hk
    rw [countWord] at hk
    split at hk
    next hw =>
      cases k with
      | zero => exact ⟨c, by simp, hw⟩
      | succ k2 =>
        have := ih k2 (by omega)
        simpa using this
    next hw => omega

/-- C6: every wildcard marker of every compiled pattern matches zero or
more characters only within a single token.  The wild case of
`matchEnds` — the sole interpretation point of wildcard markers —
consumes exactly some `d ≤ tokenRun` characters, every character of
that run is a word character, and word characters exclude whitespace
and sentence-ending punctuation; hence no wildcard ever crosses them.
Concretely, `"equal*"` matches `"equality"` and `"equals"` whole as
single occurrences, but on `"equal opportunity"` it matches only
`"equal"` — never across the space. -/
theorem claim_C6 :
    (∀ (rest : List Seg) (cs : List Char) (i e : Nat),
      e ∈ matchEnds (Seg.wild :: rest) cs i ↔
        ∃ d, d ≤ tokenRun cs i ∧ e ∈ matchEnds rest cs (i + d)) ∧
    (∀ (cs : List Char) (i j : Nat), i ≤ j → j < i + tokenRun cs i →
      ∃ c, cs[j]? = some c ∧ isWordChar c = true) ∧
    isWordChar ' ' = false ∧ isWordChar '.' = false ∧
    isWordChar '!' = false ∧ isWordChar '?' = false ∧
    findMatches (compileTerm "X" "equal*") 0 "equality" = [⟨"X", 0, 0, 8, "equality"⟩] ∧
    findMatches (compileTerm "X" "equal*") 0 "equals" = [⟨"X", 0, 0, 6, "equals"⟩] ∧
    findMatches (compileTerm "X" "equal*") 0 "equal opportunity" = [⟨"X", 0, 0, 5, "equal"⟩] := by
  refine ⟨?_, ?_, by decide, by decide, by decide, by decide, rfl, rfl, rfl⟩
  · intro rest cs i e
    rw [matchEnds, List.mem_flatMap]
    constructor
    · rintro ⟨d, hd, he⟩
      exact ⟨d, Nat.lt_succ_iff.mp (List.mem_range.mp hd), he⟩
    · rintro ⟨d, hd, he⟩
      exact ⟨d, List.mem_range.mpr (Nat.lt_succ_iff.mpr hd), he⟩
  · intro cs i j hij hj
    have hk : j - i < countWord (cs.drop i) := by
      unfold tokenRun at hj
      omega
    obtain ⟨c, hc, hw⟩ := countWord_word (cs.drop i) (j - i) hk
    refine ⟨c, ?_, hw⟩
    rw [← hc, List.getElem?_drop]
    congr 1
    omega

/-- C6 witnessed concretely: inside the wildcard window of
`"equality"` after the literal `"equal"` (offsets 5 to 7), every
character is a word character. -/
theorem claim_C6_witness :
    ∃ c, ("equality".toList)[6]? = some c ∧ isWordChar c = true :=
  claim_C6.2.1 "equality".toList 5 6 (by decide) (by decide)

/-- C9: resolving the empty Raw Match list yields the empty forest, and
resolving a single Raw Match yields exactly one root span with no
children, carrying that match's concept, offsets and matched text. -/
theorem claim_C9 :
    resolve ([] : List RawMatch) = [] ∧
    ∀ m : RawMatch, resolve [m] = [Span.mk m.concept m.start m.stop m.text []] :=
  ⟨rfl, fun _ => rfl⟩

theorem firstDup_eq_none {l : List String} : firstDup l = none ↔ l.Nodup := by
  induction l with
  | nil => simp [firstDup]
  | cons n rest ih =>
    by_cases h : rest.contains n
    · have hm : n ∈ rest := List.elem_iff.mp h
      simp [firstDup, h, hm]
    · have hm : n ∉ rest := fun hmem => h (List.elem_iff.mpr hmem)
      simp [firstDup, h, hm, ih]

/-- C7: `load` fails with a `ConfigurationError` exactly when some
concept name is empty, some concept name is duplicated, or some term
string is empty; on success the constructed configuration preserves the
concept order and each concept's term order (and, being a pure
function, has no other effect). -/
theorem claim_C7 (raw : List (String × List String)) :
    ((∃ e, load raw = .error e) ↔
      ((∃ pr ∈ raw, pr.1 = "") ∨ ¬ (raw.map (·.1)).Nodup ∨ (∃ pr ∈ raw, "" ∈ pr.2))) ∧
    (∀ cfg, load raw = .ok cfg →
      cfg.concepts.map Concept.name = raw.map (·.1) ∧
      cfg.concepts.map Concept.terms = raw.map (·.2)) := by
  cases h1 : raw.find? (fun pr => pr.1 == "") with
  | some pr =>
    have hload : load raw = .error .emptyConceptName := by
      unfold load
      rw [h1]
    have hm := List.mem_of_find?_eq_some h1
    have hp : pr.1 = "" := by simpa using List.find?_some h1
    refine ⟨⟨fun _ => Or.inl ⟨pr, hm, hp⟩, fun _ => ⟨.emptyConceptName, hload⟩⟩, ?_⟩
    intro cfg hcfg
    rw [hload] at hcfg
    exact Except.noConfusion hcfg
  | none =>
    have hno1 : ∀ pr ∈ raw, pr.1 ≠ "" := by
      intro pr hpr
      have := List.find?_eq_none.mp h1 pr hpr
      simpa using this
    cases h2 : firstDup (raw.map (·.1)) with
    | some n =>
      have hload : load raw = .error (.duplicateConceptName n) := by
        unfold load
        rw [h1, h2]
      have hnd : ¬ (raw.map (·.1)).Nodup := by
        intro hnd
        rw [← firstDup_eq_none, h2] at hnd
        exact Option.noConfusion hnd
      refine ⟨⟨fun _ => Or.inr (Or.inl hnd),
        fun _ => ⟨.duplicateConceptName n, hload⟩⟩, ?_⟩
      intro cfg hcfg
      rw [hload] at hcfg
      exact Except.noConfusion hcfg
    | none =>
      have hnd : (raw.map (·.1)).Nodup := firstDup_eq_none.mp h2
      cases h3 : raw.find? (fun pr => pr.2.contains "") with
      | some pr =>
        have hload : load raw = .error (.emptyTerm pr.1) := by
          unfold load
          rw [h1, h2, h3]
        have hm := List.mem_of_find?_eq_some h3
        have hp : "" ∈ pr.2 := by
          have hc := List.find?_some h3
          exact List.mem_of_elem_eq_true hc
        refine ⟨⟨fun _ => Or.inr (Or.inr ⟨pr, hm, hp⟩),
          fun _ => ⟨.emptyTerm pr.1, hload⟩⟩, ?_⟩
        intro cfg hcfg
        rw [hload] at hcfg
        exact Except.noConfusion hcfg
      | none =>
        have hno3 : ∀ pr ∈ raw, "" ∉ pr.2 := by
          intro pr hpr hmem
          have := List.find?_eq_none.mp h3 pr hpr
          exact this (List.elem_eq_true_of_mem hmem)
        have hok : load raw = .ok ⟨raw.map (fun pr => ⟨pr.1, pr.2⟩)⟩ := by
          unfold load
          rw [h1, h2, h3]
        constructor
        · constructor
          · rintro ⟨e, he⟩
            rw [hok] at he
            exact Except.noConfusion he
          · rintro (⟨pr, hpr, hp⟩ | hnd2 | ⟨pr, hpr, hp⟩)
            · exact absurd hp (hno1 pr hpr)
            · exact absurd hnd hnd2
            · exact absurd hp (hno3 pr hpr)
        · intro cfg hcfg
          rw [hok] at hcfg
          cases hcfg
          simp [List.map_map, Concept.name, Concept.terms]

/-- C7 witnessed at a concrete configuration: loading the two-concept
example succeeds and preserves concept and term order. -/
theorem claim_C7_witness :
    (Config.concepts ⟨[⟨"A", ["x", "y"]⟩, ⟨"B", ["z"]⟩]⟩).map Concept.name = ["A", "B"] ∧
    (Config.concepts ⟨[⟨"A", ["x", "y"]⟩, ⟨"B", ["z"]⟩]⟩).map Concept.terms = [["x", "y"], ["z"]] :=
  (claim_C7 [("A", ["x", "y"]), ("B", ["z"])]).2 ⟨[⟨"A", ["x", "y"]⟩, ⟨"B", ["z"]⟩]⟩ rfl

theorem compilePatterns_eq_flatMap (cs : List Concept) :
    compilePatterns cs = cs.flatMap (fun c => c.terms.map (compileTerm c.name)) := by
  induction cs with
  | nil => rfl
  | cons c rest ih => simp [compilePatterns, ih]

/-- C8: compilation is deterministic — compiling the same configuration
twice yields the identical Compiled Pattern sequence — and produces one
pattern per term rule in declaration order: outer order by concept,
inner order by term within concept, each pattern back-referencing its
owning concept and raw term. -/
theorem claim_C8 (cfg : Config) (ps : List CompiledPattern)
    (h : compileConfig cfg = .ok ps) :
    (∀ ps', compileConfig cfg = .ok ps' → ps' = ps) ∧
    ps = cfg.concepts.flatMap (fun c => c.terms.map (compileTerm c.name)) ∧
    ps.map (fun p => (p.concept, p.term)) =
      cfg.concepts.flatMap (fun c => c.terms.map (fun t => (c.name, t))) ∧
    ps.length = (cfg.concepts.map (fun c => c.terms.length)).sum := by
  have hps : ps = compilePatterns cfg.concepts := by
    unfold compileConfig at h
    cases h2 : (compilePatterns cfg.concepts).find? (fun p => litLen p.segs == 0) with
    | some p =>
      rw [h2] at h
      exact Except.noConfusion h
    | none =>
      rw [h2] at h
      exact (Except.ok.inj h).symm
  subst hps
  refine ⟨?_, compilePatterns_eq_flatMap _, ?_, ?_⟩
  · intro ps' h'
    rw [h] at h'
    exact (Except.ok.inj h').symm
  · rw [compilePatterns_eq_flatMap]
    simp [List.map_flatMap, List.map_map]
    rfl
  · rw [compilePatterns_eq_flatMap]
    rw [List.length_flatMap]
    congr 1
    apply List.map_congr_left
    intro c _
    simp

/-- C8 witnessed at a concrete configuration: the two-concept example
compiles to one pattern per term in declaration order. -/
theorem claim_C8_witness :
    compilePatterns [⟨"A", ["x", "y"]⟩, ⟨"B", ["z"]⟩] =
      (Config.concepts ⟨[⟨"A", ["x", "y"]⟩, ⟨"B", ["z"]⟩]⟩).flatMap
        (fun c => c.terms.map (compileTerm c.name)) ∧
    (compilePatterns [⟨"A", ["x", "y"]⟩, ⟨"B", ["z"]⟩]).length = 3 :=
  ⟨(claim_C8 ⟨[⟨"A", ["x", "y"]⟩, ⟨"B", ["z"]⟩]⟩ _ rfl).2.1,
   by rw [(claim_C8 ⟨[⟨"A", ["x", "y"]⟩, ⟨"B", ["z"]⟩]⟩ _ rfl).2.2.2]; rfl⟩

theorem findLoop_ge (p : CompiledPattern) (cs : List Char) :
    ∀ fuel i pr, pr ∈ findLoop fuel p cs i → i ≤ pr.1 := by
  intro fuel
  induction fuel with
  | zero =>
    intro i pr h
    simp [findLoop] at h
  | succ fuel ih =>
    intro i pr h
    simp only [findLoop] at h
    split at h
    next hi =>
      split at h
      next e heq =>
        split at h
        next hg =>
          rcases List.mem_cons.mp h with rfl | h'
          · exact le_refl _
          · have := ih e pr h'
            omega
        next hg =>
          have := ih (i + 1) pr h
          omega
      next heq =>
        have := ih (i + 1) pr h
        omega
    next hi =>
      simp at h

theorem findLoop_pairwise (p : CompiledPattern) (cs : List Char) :
    ∀ fuel i, List.Pairwise (fun a b : Nat × Nat => a.2 ≤ b.1) (findLoop fuel p cs i) := by
  intro fuel
  induction fuel with
  | zero =>
    intro i
    simp [findLoop]
  | succ fuel ih =>
    intro i
    simp only [findLoop]
    split
    next hi =>
      split
      next e heq =>
        split
        next hg =>
          exact List.Pairwise.cons (fun b hb2 => findLoop_ge p cs fuel e b hb2) (ih e)
        next hg =>
          exact ih (i + 1)
      next heq =>
        exact ih (i + 1)
    next hi =>
      exact List.Pairwise.nil

theorem findMatches_pairwise (p : CompiledPattern) (idx : Nat) (text : String) :
    List.Pairwise (fun a b : RawMatch => a.stop ≤ b.start) (findMatches p idx text) := by
  unfold findMatches
  exact List.Pairwise.map _ (fun a b h => h) (findLoop_pairwise p _ _ 0)

/-- C3: the Scanner's output is the merge of every pattern's
leftmost-longest non-overlapping occurrence list: a permutation of the
concatenated per-pattern results (no match is dropped because of
cross-pattern overlap), ordered primarily by start offset ascending and
secondarily by compiled-pattern declaration order, while each single
pattern's own occurrences never overlap. -/
theorem claim_C3 (text : String) (pats : List CompiledPattern) :
    (scan text pats).Perm ((pats.enum).flatMap (fun ip => findMatches ip.2 ip.1 text)) ∧
    List.Pairwise scanOrd (scan text pats) ∧
    ∀ ip ∈ pats.enum, List.Pairwise (fun a b : RawMatch => a.stop ≤ b.start)
      (findMatches ip.2 ip.1 text) :=
  ⟨List.perm_insertionSort scanOrd _,
   List.sorted_insertionSort scanOrd _,
   fun ip _ => findMatches_pairwise ip.2 ip.1 text⟩

/-- C3 witnessed concretely: the per-pattern occurrence list of the
`justice` pattern on the overlap example text is non-overlapping. -/
theorem claim_C3_witness :
    List.Pairwise (fun a b : RawMatch => a.stop ≤ b.start)
      (findMatches (compileTerm "B" "justice") 0 "distributive justice.") :=
  (claim_C3 "distributive justice." [compileTerm "B" "justice"]).2.2
    (0, compileTerm "B" "justice") (List.mem_singleton.mpr rfl)

theorem segsOfChars_no_wild :
    ∀ cs : List Char, cs ≠ [] → '*' ∉ cs → segsOfChars cs = [Seg.lit cs] := by
  intro cs
  induction cs with
  | nil => intro h; exact absurd rfl h
  | cons c rest ih =>
    intro _ hs
    have hc : c ≠ '*' := fun h => hs (h ▸ List.mem_cons_self c rest)
    have hrest : '*' ∉ rest := fun h => hs (List.mem_cons_of_mem c h)
    cases rest with
    | nil => simp [segsOfChars, hc]
    | cons d rest2 =>
      rw [segsOfChars, if_neg hc, ih (by simp) hrest]

theorem maxNat?_mem : ∀ {l : List Nat} {m : Nat}, maxNat? l = some m → m ∈ l := by
  intro l
  induction l with
  | nil => intro m h; exact Option.noConfusion h
  | cons n rest ih =>
    intro m h
    rw [maxNat?] at h
    cases hr : maxNat? rest with
    | none =>
      rw [hr] at h
      cases h
      exact List.mem_cons_self n rest
    | some m' =>
      rw [hr] at h
      cases h
      show (if n ≤ m' then m' else n) ∈ n :: rest
      split
      next hle => exact List.mem_cons_of_mem n (ih hr)
      next hle => exact List.mem_cons_self n rest

theorem findLoop_emit (p : CompiledPattern) (cs : List Char) :
    ∀ fuel i pr, pr ∈ findLoop fuel p cs i →
      bestEndAt p cs pr.1 = some pr.2 ∧ pr.1 < pr.2 ∧ pr.2 ≤ cs.length := by
  intro fuel
  induction fuel with
  | zero =>
    intro i pr h
    simp [findLoop] at h
  | succ fuel ih =>
    intro i pr h
    simp only [findLoop] at h
    split at h
    next hi =>
      split at h
      next e heq =>
        split at h
        next hg =>
          rcases List.mem_cons.mp h with rfl | h'
          · exact ⟨heq, hg⟩
          · exact ih e pr h'
        next hg =>
          exact ih (i + 1) pr h
      next heq =>
        exact ih (i + 1) pr h
    next hi =>
      simp at h

theorem bestEndAt_single_lit (p : CompiledPattern) (l : List Char) (cs : List Char)
    (hseg : p.segs = [Seg.lit l]) (i e : Nat) (h : bestEndAt p cs i = some e) :
    (cs.drop i).take l.length = l ∧ e = i + l.length := by
  unfold bestEndAt at h
  split at h
  next hb =>
    have hmem := maxNat?_mem h
    have hmem2 := List.mem_of_mem_filter hmem
    rw [hseg] at hmem2
    rw [matchEnds] at hmem2
    split at hmem2
    next hlit =>
      rw [matchEnds] at hmem2
      have he : e = i + l.length := by simpa using hmem2
      refine ⟨?_, he⟩
      have := eq_of_beq (a := (cs.drop i).take l.length) (b := l) hlit
      exact this
    next hlit =>
      simp at hmem2
  next hb =>
    exact Option.noConfusion h

theorem findMatches_lit_text (p : CompiledPattern) (l : List Char) (idx : Nat) (text : String)
    (hseg : p.segs = [Seg.lit l]) (m : RawMatch) (hm : m ∈ findMatches p idx text) :
    m.text = String.mk ((text.toList.drop m.start).take (m.stop - m.start)) ∧
    ((foldText p text.toList).drop m.start).take (m.stop - m.start) = l := by
  unfold findMatches at hm
  rcases List.mem_map.mp hm with ⟨pr, hpr, rfl⟩
  have hemit := findLoop_emit p (foldText p text.toList) _ 0 pr hpr
  have hbest := bestEndAt_single_lit p l (foldText p text.toList) hseg pr.1 pr.2 hemit.1
  refine ⟨rfl, ?_⟩
  have he : pr.2 - pr.1 = l.length := by omega
  simpa [he] using hbest.1

/-- C5: case policy of compiled literal terms.  An all-uppercase term
compiles case-sensitively: every match's substring is the term verbatim
(so `"AI"` matches `"AI"` and not `"ai"`); any other term compiles
case-insensitively: every match's substring equals the term up to ASCII
case (so `"Bias"` matches both `"bias"` and `"Bias"`). -/
theorem claim_C5 :
    (∀ (concept term : String) (idx : Nat) (text : String) (m : RawMatch),
      term.toList ≠ [] → '*' ∉ term.toList → isAllUpperTerm term = true →
      m ∈ findMatches (compileTerm concept term) idx text →
      m.text = term) ∧
    (∀ (concept term : String) (idx : Nat) (text : String) (m : RawMatch),
      term.toList ≠ [] → '*' ∉ term.toList → isAllUpperTerm term = false →
      m ∈ findMatches (compileTerm concept term) idx text →
      m.text.toList.map toLowerAscii = term.toList.map toLowerAscii) ∧
    findMatches (compileTerm "Y" "AI") 0 "AI" = [⟨"Y", 0, 0, 2, "AI"⟩] ∧
    findMatches (compileTerm "Y" "AI") 0 "ai" = [] ∧
    findMatches (compileTerm "Y" "Bias") 0 "bias" = [⟨"Y", 0, 0, 4, "bias"⟩] ∧
    findMatches (compileTerm "Y" "Bias") 0 "Bias" = [⟨"Y", 0, 0, 4, "Bias"⟩] := by
  refine ⟨?_, ?_, rfl, rfl, rfl, rfl⟩
  · intro concept term idx text m hne hstar hup hm
    have hsplit := segsOfChars_no_wild term.toList hne hstar
    have hic : (compileTerm concept term).ignoreCase = false := by
      simp [compileTerm, hup]
    have hseg : (compileTerm concept term).segs = [Seg.lit term.toList] := by
      show (if (!isAllUpperTerm term) = true then (segsOfChars term.toList).map lowerSeg
            else segsOfChars term.toList) = [Seg.lit term.toList]
      rw [hup]
      simpa using hsplit
    have h := findMatches_lit_text _ _ idx text hseg m hm
    rw [h.1]
    have hfold : foldText (compileTerm concept term) text.toList = text.toList := by
      simp [foldText, hic]
    rw [hfold] at h
    rw [h.2]
    rfl
  · intro concept term idx text m hne hstar hup hm
    have hsplit := segsOfChars_no_wild term.toList hne hstar
    have hic : (compileTerm concept term).ignoreCase = true := by
      simp [compileTerm, hup]
    have hseg : (compileTerm concept term).segs = [Seg.lit (term.toList.map toLowerAscii)] := by
      show (if (!isAllUpperTerm term) = true then (segsOfChars term.toList).map lowerSeg
            else segsOfChars term.toList) = [Seg.lit (term.toList.map toLowerAscii)]
      rw [hup, hsplit]
      simp [lowerSeg]
    have h := findMatches_lit_text _ _ idx text hseg m hm
    have hfold : foldText (compileTerm concept term) text.toList = text.toList.map toLowerAscii := by
      simp [foldText, hic]
    rw [hfold] at h
    have htext : m.text.toList = (text.toList.drop m.start).take (m.stop - m.start) := by
      rw [h.1]
      rfl
    rw [htext, List.map_take, List.map_drop, h.2]

/-- C5 witnessed concretely: the case-sensitive pattern of term `"AI"`
matching at offset 0 of text `"AI"` yields the exact-case substring, and
the case-insensitive pattern of `"Bias"` matches `"bias"` up to case. -/
theorem claim_C5_witness :
    (RawMatch.text ⟨"Y", 0, 0, 2, "AI"⟩ = "AI") ∧
    ((RawMatch.text ⟨"Y", 0, 0, 4, "bias"⟩).toList.map toLowerAscii =
      "Bias".toList.map toLowerAscii) :=
  ⟨claim_C5.1 "Y" "AI" 0 "AI" ⟨"Y", 0, 0, 2, "AI"⟩ (by decide) (by decide) (by decide)
      (by rw [claim_C5.2.2.1]; exact List.mem_singleton.mpr rfl),
   claim_C5.2.1 "Y" "Bias" 0 "bias" ⟨"Y", 0, 0, 4, "bias"⟩ (by decide) (by decide) (by decide)
      (by rw [claim_C5.2.2.2.2.1]; exact List.mem_singleton.mpr rfl)⟩

/-! ## Well-formedness of the resolved span forest (C4) -/

@[simp] theorem Span.concept_mk (c : String) (s e : Nat) (t : String) (ch : List Span) :
    (Span.mk c s e t ch).concept = c := rfl

@[simp] theorem Span.start_mk (c : String) (s e : Nat) (t : String) (ch : List Span) :
    (Span.mk c s e t ch).start = s := rfl

@[simp] theorem Span.stop_mk (c : String) (s e : Nat) (t : String) (ch : List Span) :
    (Span.mk c s e t ch).stop = e := rfl

@[simp] theorem Span.text_mk (c : String) (s e : Nat) (t : String) (ch : List Span) :
    (Span.mk c s e t ch).text = t := rfl

@[simp] theorem Span.children_mk (c : String) (s e : Nat) (t : String) (ch : List Span) :
    (Span.mk c s e t ch).children = ch := rfl

/-- Siblings are sequential: each span ends at or before the next
starts (in particular no two of them cross). -/
def seqSpans (l : List Span) : Prop :=
  List.Pairwise (fun a b : Span => a.stop ≤ b.start) l

/-- Well-formedness of a span tree over a document of length `len`:
the interval is inside `[0, len)` with `start < stop`, every child's
interval is contained in the parent's, the children are recursively
well-formed, and no two children cross. -/
inductive SpanWF (len : Nat) : Span → Prop where
  | node : ∀ (c : String) (s e : Nat) (t : String) (ch : List Span),
      s < e → e ≤ len →
      (∀ x ∈ ch, SpanWF len x) →
      (∀ x ∈ ch, s ≤ x.start ∧ x.stop ≤ e) →
      seqSpans ch →
      SpanWF len (.mk c s e t ch)

/-- Invariant of one open span on the resolver's stack. -/
def FrameOK (len : Nat) (f : Frame) : Prop :=
  f.fm.start < f.fm.stop ∧ f.fm.stop ≤ len ∧
  (∀ x ∈ f.children, SpanWF len x) ∧
  (∀ x ∈ f.children, f.fm.start ≤ x.start ∧ x.stop ≤ f.fm.stop) ∧
  seqSpans f.children

/-- Relation between an open span `a` and the open span `b` directly
below it: `b` opened no later than `a`, and every child already closed
into `b` ended by the time `a` opened. -/
def Adj (a b : Frame) : Prop :=
  b.fm.start ≤ a.fm.start ∧ ∀ x ∈ b.children, x.stop ≤ a.fm.start

/-- Every adjacent pair of stack entries satisfies `Adj`. -/
def StackAdj : List Frame → Prop
  | [] => True
  | [_] => True
  | f :: g :: rest => Adj f g ∧ StackAdj (g :: rest)

/-- The top of the stack opened at or before position `p`, and all its
closed children ended at or before `p`. -/
def TopLE (p : Nat) : List Frame → Prop
  | [] => True
  | f :: _ => f.fm.start ≤ p ∧ ∀ x ∈ f.children, x.stop ≤ p

theorem TopLE_mono {p q : Nat} (hpq : p ≤ q) : ∀ {stack : List Frame}, TopLE p stack → TopLE q stack
  | [], _ => trivial
  | _ :: _, h => ⟨le_trans h.1 hpq, fun x hx => le_trans (h.2 x hx) hpq⟩

theorem closeFrame_wf {len : Nat} {f : Frame} (h : FrameOK len f) : SpanWF len (closeFrame f) :=
  SpanWF.node _ _ _ _ _ h.1 h.2.1 h.2.2.1 h.2.2.2.1 h.2.2.2.2

theorem seqSpans_append_one {l : List Span} {sp : Span}
    (hl : seqSpans l) (hall : ∀ x ∈ l, x.stop ≤ sp.start) : seqSpans (l ++ [sp]) := by
  unfold seqSpans at *
  rw [List.pairwise_append]
  exact ⟨hl, List.pairwise_singleton _ _, fun a ha b hb => by
    rw [List.mem_singleton.mp hb]
    exact hall a ha⟩

theorem popEndedF_nil (fuel : Nat) (po : Option Nat) (roots : List Span) :
    popEndedF (fuel + 1) po roots [] = (roots, []) := rfl

theorem popEndedF_cons_nil (fuel : Nat) (po : Option Nat) (roots : List Span) (f : Frame) :
    popEndedF (fuel + 1) po roots [f] =
      if shouldPop po f then (roots ++ [closeFrame f], []) else (roots, [f]) := rfl

theorem popEndedF_cons_cons (fuel : Nat) (po : Option Nat) (roots : List Span)
    (f g : Frame) (rest2 : List Frame) :
    popEndedF (fuel + 1) po roots (f :: g :: rest2) =
      if shouldPop po f then
        (if frContains g (closeFrame f) then
          popEndedF fuel po roots ({ g with children := g.children ++ [closeFrame f] } :: rest2)
        else popEndedF fuel po (roots ++ [closeFrame f]) (g :: rest2))
      else (roots, f :: g :: rest2) := rfl

theorem popEndedF_some_ok (len p : Nat) :
    ∀ (fuel : Nat) (roots : List Span) (stack : List Frame),
      (∀ sp ∈ roots, SpanWF len sp) →
      (∀ f ∈ stack, FrameOK len f) →
      StackAdj stack →
      TopLE p stack →
      (∀ sp ∈ (popEndedF fuel (some p) roots stack).1, SpanWF len sp) ∧
      (∀ f ∈ (popEndedF fuel (some p) roots stack).2, FrameOK len f) ∧
      StackAdj (popEndedF fuel (some p) roots stack).2 ∧
      TopLE p (popEndedF fuel (some p) roots stack).2 := by
  intro fuel
  induction fuel with
  | zero =>
    intro roots stack hroots hframes hadj htop
    exact ⟨hroots, hframes, hadj, htop⟩
  | succ fuel ih =>
    intro roots stack hroots hframes hadj htop
    cases stack with
    | nil =>
      rw [popEndedF_nil]
      exact ⟨hroots, by simp, trivial, trivial⟩
    | cons f rest =>
      have hfOK : FrameOK len f := hframes f (List.mem_cons_self f rest)
      by_cases hpop : shouldPop (some p) f = true
      · have hple : f.fm.stop ≤ p := of_decide_eq_true hpop
        cases rest with
        | nil =>
          rw [popEndedF_cons_nil, if_pos hpop]
          refine ⟨?_, by simp, trivial, trivial⟩
          intro sp hsp
          rcases List.mem_append.mp hsp with h | h
          · exact hroots sp h
          · rw [List.mem_singleton.mp h]
            exact closeFrame_wf hfOK
        | cons g rest2 =>
          rw [popEndedF_cons_cons, if_pos hpop]
          have hgOK : FrameOK len g := hframes g (List.mem_cons_of_mem f (List.mem_cons_self g rest2))
          have hAdj : Adj f g := hadj.1
          have htopf : f.fm.start ≤ p := htop.1
          by_cases hcont : frContains g (closeFrame f) = true
          · rw [if_pos hcont]
            have hcont2 : g.fm.start ≤ (closeFrame f).start ∧ (closeFrame f).stop ≤ g.fm.stop := by
              have := hcont
              unfold frContains at this
              rcases Bool.and_eq_true_iff.mp this with ⟨h1, h2⟩
              exact ⟨of_decide_eq_true h1, of_decide_eq_true h2⟩
            have hgOK' : FrameOK len { g with children := g.children ++ [closeFrame f] } := by
              refine ⟨hgOK.1, hgOK.2.1, ?_, ?_, ?_⟩
              · intro x hx
                rcases List.mem_append.mp hx with h | h
                · exact hgOK.2.2.1 x h
                · rw [List.mem_singleton.mp h]
                  exact closeFrame_wf hfOK
              · intro x hx
                rcases List.mem_append.mp hx with h | h
                · exact hgOK.2.2.2.1 x h
                · rw [List.mem_singleton.mp h]
                  exact hcont2
              · exact seqSpans_append_one hgOK.2.2.2.2 (fun x hx => hAdj.2 x hx)
            refine ih roots _ hroots ?_ ?_ ?_
            · intro f2 hf2
              rcases List.mem_cons.mp hf2 with rfl | h
              · exact hgOK'
              · exact hframes f2 (List.mem_cons_of_mem f (List.mem_cons_of_mem g h))
            · have hadjtail : StackAdj (g :: rest2) := hadj.2
              cases rest2 with
              | nil => trivial
              | cons h2 rest3 =>
                exact ⟨hadjtail.1, hadjtail.2⟩
            · refine ⟨le_trans hAdj.1 htopf, ?_⟩
              intro x hx
              rcases List.mem_append.mp hx with h | h
              · exact le_trans (hAdj.2 x h) htopf
              · rw [List.mem_singleton.mp h]
                exact hple
          · rw [if_neg hcont]
            refine ih _ _ ?_ ?_ ?_ ?_
            · intro sp hsp
              rcases List.mem_append.mp hsp with h | h
              · exact hroots sp h
              · rw [List.mem_singleton.mp h]
                exact closeFrame_wf hfOK
            · intro f2 hf2
              exact hframes f2 (List.mem_cons_of_mem f hf2)
            · exact hadj.2
            · exact ⟨le_trans hAdj.1 htopf, fun x hx => le_trans (hAdj.2 x hx) htopf⟩
      · cases rest with
        | nil =>
          rw [popEndedF_cons_nil, if_neg hpop]
          exact ⟨hroots, hframes, hadj, htop⟩
        | cons g rest2 =>
          rw [popEndedF_cons_cons, if_neg hpop]
          exact ⟨hroots, hframes, hadj, htop⟩

theorem popEndedF_none_ok (len : Nat) :
    ∀ (fuel : Nat) (roots : List Span) (stack : List Frame),
      (∀ sp ∈ roots, SpanWF len sp) →
      (∀ f ∈ stack, FrameOK len f) →
      StackAdj stack →
      ∀ sp ∈ (popEndedF fuel none roots stack).1, SpanWF len sp := by
  intro fuel
  induction fuel with
  | zero =>
    intro roots stack hroots hframes hadj
    exact hroots
  | succ fuel ih =>
    intro roots stack hroots hframes hadj
    cases stack with
    | nil =>
      rw [popEndedF_nil]
      exact hroots
    | cons f rest =>
      have hfOK : FrameOK len f := hframes f (List.mem_cons_self f rest)
      cases rest with
      | nil =>
        rw [popEndedF_cons_nil, if_pos (show shouldPop none f = true from rfl)]
        intro sp hsp
        rcases List.mem_append.mp hsp with h | h
        · exact hroots sp h
        · rw [List.mem_singleton.mp h]
          exact closeFrame_wf hfOK
      | cons g rest2 =>
        rw [popEndedF_cons_cons, if_pos (show shouldPop none f = true from rfl)]
        have hgOK : FrameOK len g := hframes g (List.mem_cons_of_mem f (List.mem_cons_self g rest2))
        have hAdj : Adj f g := hadj.1
        by_cases hcont : frContains g (closeFrame f) = true
        · rw [if_pos hcont]
          have hcont2 : g.fm.start ≤ (closeFrame f).start ∧ (closeFrame f).stop ≤ g.fm.stop := by
            have := hcont
            unfold frContains at this
            rcases Bool.and_eq_true_iff.mp this with ⟨h1, h2⟩
            exact ⟨of_decide_eq_true h1, of_decide_eq_true h2⟩
          have hgOK' : FrameOK len { g with children := g.children ++ [closeFrame f] } := by
            refine ⟨hgOK.1, hgOK.2.1, ?_, ?_, ?_⟩
            · intro x hx
              rcases List.mem_append.mp hx with h | h
              · exact hgOK.2.2.1 x h
              · rw [List.mem_singleton.mp h]
                exact closeFrame_wf hfOK
            · intro x hx
              rcases List.mem_append.mp hx with h | h
              · exact hgOK.2.2.2.1 x h
              · rw [List.mem_singleton.mp h]
                exact hcont2
            · exact seqSpans_append_one hgOK.2.2.2.2 (fun x hx => hAdj.2 x hx)
          refine ih roots _ hroots ?_ ?_
          · intro f2 hf2
            rcases List.mem_cons.mp hf2 with rfl | h
            · exact hgOK'
            · exact hframes f2 (List.mem_cons_of_mem f (List.mem_cons_of_mem g h))
          · have hadjtail : StackAdj (g :: rest2) := hadj.2
            cases rest2 with
            | nil => trivial
            | cons h2 rest3 =>
              exact ⟨hadjtail.1, hadjtail.2⟩
        · rw [if_neg hcont]
          refine ih _ _ ?_ ?_ ?_
          · intro sp hsp
            rcases List.mem_append.mp hsp with h | h
            · exact hroots sp h
            · rw [List.mem_singleton.mp h]
              exact closeFrame_wf hfOK
          · intro f2 hf2
            exact hframes f2 (List.mem_cons_of_mem f hf2)
          · exact hadj.2

theorem rstep_ok (len p : Nat) (m : RawMatch) (st : List Span × List Frame)
    (hm1 : m.start < m.stop) (hm2 : m.stop ≤ len) (hp : p ≤ m.start)
    (hroots : ∀ sp ∈ st.1, SpanWF len sp) (hframes : ∀ f ∈ st.2, FrameOK len f)
    (hadj : StackAdj st.2) (htop : TopLE p st.2) :
    (∀ sp ∈ (rstep st m).1, SpanWF len sp) ∧ (∀ f ∈ (rstep st m).2, FrameOK len f) ∧
    StackAdj (rstep st m).2 ∧ TopLE m.start (rstep st m).2 := by
  have hpop := popEndedF_some_ok len m.start st.2.length st.1 st.2 hroots hframes hadj
    (TopLE_mono hp htop)
  have hr : rstep st m =
      ((popEndedF st.2.length (some m.start) st.1 st.2).1,
        ⟨m, []⟩ :: (popEndedF st.2.length (some m.start) st.1 st.2).2) := rfl
  rw [hr]
  refine ⟨hpop.1, ?_, ?_, ?_⟩
  · intro f hf
    rcases List.mem_cons.mp hf with rfl | h
    · exact ⟨hm1, hm2, by simp, by simp, List.Pairwise.nil⟩
    · exact hpop.2.1 f h
  · cases hstack : (popEndedF st.2.length (some m.start) st.1 st.2).2 with
    | nil => trivial
    | cons g rest =>
      have htop2 := hpop.2.2.2
      rw [hstack] at htop2
      have hadj2 := hpop.2.2.1
      rw [hstack] at hadj2
      exact ⟨⟨htop2.1, htop2.2⟩, hadj2⟩
  · exact ⟨le_refl _, by simp⟩

theorem foldl_rstep_ok (len : Nat) :
    ∀ (ms : List RawMatch) (p : Nat) (st : List Span × List Frame),
      (∀ m ∈ ms, m.start < m.stop ∧ m.stop ≤ len) →
      List.Pairwise (fun a b : RawMatch => a.start ≤ b.start) ms →
      (∀ m ∈ ms, p ≤ m.start) →
      (∀ sp ∈ st.1, SpanWF len sp) → (∀ f ∈ st.2, FrameOK len f) →
      StackAdj st.2 → TopLE p st.2 →
      (∀ sp ∈ (ms.foldl rstep st).1, SpanWF len sp) ∧
      (∀ f ∈ (ms.foldl rstep st).2, FrameOK len f) ∧
      StackAdj (ms.foldl rstep st).2 := by
  intro ms
  induction ms with
  | nil =>
    intro p st _ _ _ hroots hframes hadj _
    exact ⟨hroots, hframes, hadj⟩
  | cons m rest ih =>
    intro p st hb hsort hge hroots hframes hadj htop
    rw [List.foldl_cons]
    have hm := hb m (List.mem_cons_self m rest)
    have hstep := rstep_ok len p m st hm.1 hm.2 (hge m (List.mem_cons_self m rest))
      hroots hframes hadj htop
    exact ih m.start (rstep st m)
      (fun x hx => hb x (List.mem_cons_of_mem m hx))
      (List.Pairwise.sublist (List.sublist_cons_self m rest) hsort)
      (fun x hx => List.rel_of_pairwise_cons hsort hx)
      hstep.1 hstep.2.1 hstep.2.2.1 hstep.2.2.2

theorem resOrd_starts {a b : RawMatch} (h : resOrd a b) : a.start ≤ b.start := by
  unfold resOrd at h
  omega

/-- Any match list whose members' intervals are inside the document
resolves to a forest of well-formed spans. -/
theorem resolve_wf (len : Nat) (ms : List RawMatch)
    (hb : ∀ m ∈ ms, m.start < m.stop ∧ m.stop ≤ len) :
    ∀ sp ∈ resolve ms, SpanWF len sp := by
  unfold resolve resolveSorted
  have hperm := List.perm_insertionSort resOrd ms
  have hsort : List.Pairwise (fun a b : RawMatch => a.start ≤ b.start)
      (List.insertionSort resOrd ms) :=
    List.Pairwise.imp resOrd_starts (List.sorted_insertionSort resOrd ms)
  have hb2 : ∀ m ∈ List.insertionSort resOrd ms, m.start < m.stop ∧ m.stop ≤ len :=
    fun m hm => hb m (hperm.mem_iff.mp hm)
  have hfold := foldl_rstep_ok len (List.insertionSort resOrd ms) 0 ([], [])
    hb2 hsort (fun _ _ => Nat.zero_le _) (by simp) (by simp) trivial trivial
  exact popEndedF_none_ok len _ _ _ hfold.1 hfold.2.1 hfold.2.2

theorem foldText_length (p : CompiledPattern) (cs : List Char) :
    (foldText p cs).length = cs.length := by
  unfold foldText
  split
  · exact List.length_map cs toLowerAscii
  · rfl

theorem scan_bounds (text : String) (pats : List CompiledPattern) :
    ∀ m ∈ scan text pats, m.start < m.stop ∧ m.stop ≤ text.length := by
  intro m hm
  unfold scan at hm
  have hm2 : m ∈ (pats.enum).flatMap (fun ip => findMatches ip.2 ip.1 text) :=
    (List.perm_insertionSort scanOrd _).mem_iff.mp hm
  rcases List.mem_flatMap.mp hm2 with ⟨ip, hip, hmf⟩
  unfold findMatches at hmf
  rcases List.mem_map.mp hmf with ⟨pr, hpr, rfl⟩
  have h := findLoop_emit _ _ _ 0 pr hpr
  refine ⟨h.2.1, ?_⟩
  have hlen := foldText_length ip.2 text.toList
  have h2 := h.2.2
  rw [hlen] at h2
  exact h2

/-- C4: for every document text and compiled pattern list, every span
of the resolved forest — nested spans included — has its interval
inside `[0, text.length)` with `start < stop`, every child's interval
contained in its parent's, and the children of each span sequential,
hence never crossing. -/
theorem claim_C4 (text : String) (pats : List CompiledPattern) :
    ∀ sp ∈ resolve (scan text pats), SpanWF text.length sp :=
  resolve_wf text.length (scan text pats) (scan_bounds text pats)

/-- C4 witnessed concretely: the nested forest of the overlap example
is well-formed for its 21-character text. -/
theorem claim_C4_witness :
    SpanWF ("distributive justice.".length)
      (Span.mk "A" 0 20 "distributive justice" [Span.mk "B" 13 20 "justice" []]) :=
  claim_C4 "distributive justice."
    [compileTerm "A" "distributive justice", compileTerm "B" "justice"]
    (Span.mk "A" 0 20 "distributive justice" [Span.mk "B" 13 20 "justice" []])
    (List.mem_singleton.mpr rfl)

/-- C10: iterating over a Search value yields exactly the DocResult
sequence of its `search_documents` operation, over the same document
store and configuration. -/
theorem claim_C10 : ∀ s : Search, searchIter s = searchDocuments s := by
  intro s
  show searchIterAux s s.docs = s.docs.map (searchDoc s)
  induction s.docs with
  | nil => rfl
  | cons d rest ih => simp [searchIterAux, ih]

end Leat
